import Mathlib

/-!
Verification development for `llmingest.py`: an ignore-aware repository
digest tool.  The Python source is shallowly embedded below.  A filesystem
is a finite tree of named entries; a file carries `some content` when it can
be read and decoded as text and `none` when reading or decoding fails
(mirroring the `UnicodeDecodeError` / `OSError` cases of the source).  Paths
are lists of components; joining with "/" models POSIX path strings
(`Path.as_posix()` and `str(Path)` coincide on POSIX, which is the platform
modelled here).  The external `pathspec` dependency is modelled from the
spec's description of gitignore pattern semantics, restricted to the
wildcard-free patterns that the concrete scenarios below use.
-/

/-- Model of a filesystem entry: a text file (with `none` marking a file
whose bytes cannot be read or decoded as text) or a directory with an
ordered list of named children.  The child order models the arbitrary but
fixed order in which `os.scandir`/`os.walk` lists a directory. -/
inductive FSEntry where
  | file (content : Option String)
  | dir (entries : List (String × FSEntry))

/-- A directory body: the named children in listing order. -/
abbrev FSDir := List (String × FSEntry)

/-- Model of `Path.is_dir()` for an entry of the modelled filesystem. -/
def FSEntry.isDir : FSEntry → Bool
  | .dir _ => true
  | .file _ => false

mutual
/-- Structural size of an entry, used as recursion fuel by the walks. -/
def fsEntrySize : FSEntry → Nat
  | .file _ => 1
  | .dir es => 1 + fsDirSize es
/-- Structural size of a directory body; strictly larger than the size of
every entry it contains, at any depth. -/
def fsDirSize : List (String × FSEntry) → Nat
  | [] => 1
  | ne :: rest => 1 + fsEntrySize ne.2 + fsDirSize rest
end

/-- Strict lexicographic comparison of character lists by code point,
modelling Python's string comparison (used by `sorted`). -/
def charListLt : List Char → List Char → Bool
  | [], [] => false
  | [], _ :: _ => true
  | _ :: _, [] => false
  | a :: as, b :: bs =>
      if a.toNat < b.toNat then true
      else if b.toNat < a.toNat then false
      else charListLt as bs

/-- Total preorder on strings induced by `charListLt`: not strictly
greater. -/
def strLeB (a b : String) : Bool := !(charListLt b.data a.data)

/-- Model of Python's `str.startswith`. -/
def pyStartsWith (s pre : String) : Bool := pre.data.isPrefixOf s.data

/-- Model of Python's `str.endswith`. -/
def pyEndsWith (s suf : String) : Bool := suf.data.isSuffixOf s.data

/-- Splitting a character list at a separator character; like Python's
`str.split(sep)`, every separator occurrence produces a field, so a
trailing separator yields a trailing empty field. -/
def splitOnCharAux (sep : Char) : List Char → List Char → List (List Char)
  | [], acc => [acc.reverse]
  | c :: rest, acc =>
      if c = sep then acc.reverse :: splitOnCharAux sep rest []
      else splitOnCharAux sep rest (c :: acc)

/-- Splitting a string at a separator character. -/
def pySplitChar (sep : Char) (s : String) : List String :=
  (splitOnCharAux sep s.data []).map String.mk

/-- Dropping the first `n` characters of a string. -/
def pyStrDrop (s : String) (n : Nat) : String := String.mk (s.data.drop n)

/-- Dropping the last `n` characters of a string. -/
def pyStrDropRight (s : String) (n : Nat) : String := String.mk (s.data.take (s.data.length - n))

/-- Stable insertion of an element into a list ordered by its first
component; an element is placed before the first element whose key is not
smaller, which preserves the relative order of equal keys. -/
def insertByFst {α : Type} (x : String × α) : List (String × α) → List (String × α)
  | [] => [x]
  | y :: ys => if strLeB x.1 y.1 then x :: y :: ys else y :: insertByFst x ys

/-- Stable insertion sort by the first component.  Models Python's
`sorted(os.listdir(dir))`, which sorts names by code points; a stable sort
by a total preorder is a unique function, so any stable sort models
`sorted`. -/
def sortByFst {α : Type} : List (String × α) → List (String × α)
  | [] => []
  | x :: xs => insertByFst x (sortByFst xs)

/-- A compiled ignore pattern, as produced by
`pathspec.PathSpec.from_lines("gitwildmatch", ...)` for one non-null line:
the re-include flag (`inc = false` for a `!`-prefixed negation pattern) and
the compiled matcher on slash-separated path strings. -/
structure CompiledPattern where
  inc : Bool
  matchesPath : String → Bool

/-- A loaded rule set: the compiled non-null patterns, in file order. -/
abbrev PathSpec := List CompiledPattern

/-- Model of `pathspec.PathSpec.match_file`: every pattern is consulted in
file order and the last pattern that matches decides (its `inc` flag);
when no pattern matches the file is not ignored. -/
def psMatchFile (ps : PathSpec) (p : String) : Bool :=
  ps.foldl (fun acc pat => if pat.matchesPath p then pat.inc else acc) false

/-- Model of the source's `if spec and spec.match_file(path)` guard: with no
rule set loaded nothing is ignored. -/
def specMatchOpt (spec : Option PathSpec) (p : String) : Bool :=
  match spec with
  | none => false
  | some ps => psMatchFile ps p

/-- Helper for the gitwildmatch matcher: does the component list `cs` start
with the pattern segments `segs`, with an admissible remainder?  A
directory-only pattern (trailing `/` in the source pattern) requires a
nonempty remainder, i.e. the path string continues with a `/` after the
matched segments (so `sub/` matches the directory check path `sub/` and
every path below `sub`, but not the bare file path `sub`). -/
def gwMatchHere (segs : List String) (dirOnly : Bool) (cs : List String) : Bool :=
  (cs.take segs.length == segs) && (if dirOnly then !(cs.drop segs.length).isEmpty else true)

/-- Helper for the gitwildmatch matcher: an unanchored pattern may match
after any number of leading components. -/
def gwMatchFrom (segs : List String) (dirOnly : Bool) : List String → Bool
  | [] => gwMatchHere segs dirOnly []
  | c :: rest => gwMatchHere segs dirOnly (c :: rest) || gwMatchFrom segs dirOnly rest

/-- The compiled matcher of one gitwildmatch pattern on a slash-separated
path string, split into components. -/
def gwMatch (anchored : Bool) (segs : List String) (dirOnly : Bool) (cs : List String) : Bool :=
  if anchored then gwMatchHere segs dirOnly cs else gwMatchFrom segs dirOnly cs

/-- Modelled from the spec: compilation of one ignore-file line by the
external `pathspec` dependency (`gitwildmatch` syntax), which is not part
of this repository's source.  Blank lines and `#` comment lines compile to
null patterns (skipped); a leading `!` negates; a trailing `/` makes the
pattern directory-only; a pattern containing an interior `/` is anchored at
the root while a single-component pattern matches at any depth.  The model
covers wildcard-free patterns, which is all the concrete scenarios of the
claims use; wildcard characters would be matched literally here. -/
def gitWildCompile (line : String) : Option CompiledPattern :=
  if line = "" then none
  else if pyStartsWith line "#" then none
  else
    let inc := !(pyStartsWith line "!")
    let body := if pyStartsWith line "!" then pyStrDrop line 1 else line
    let dirOnly := pyEndsWith body "/"
    let body2 := if pyEndsWith body "/" then pyStrDropRight body 1 else body
    if body2 = "" then none
    else
      let segs := pySplitChar '/' body2
      let anchored := segs.length > 1
      let segs2 := match segs with
        | "" :: rest => rest
        | s => s
      some { inc := inc, matchesPath := fun p => gwMatch anchored segs2 dirOnly (pySplitChar '/' p) }

/-- Model of Python's `str.splitlines()` restricted to `\n` separators: the
string is split at newlines and a trailing newline produces no trailing
empty line. -/
def pySplitlines (s : String) : List String :=
  let parts := pySplitChar '\n' s
  if parts.getLast? = some "" then parts.dropLast else parts

/-- The `LANGUAGE_MAP` table of the source, in source order. -/
def LANGUAGE_MAP : List (String × String) :=
  [(".py", "python"), (".js", "javascript"), (".ts", "typescript"), (".java", "java"),
   (".c", "c"), (".cpp", "cpp"), (".h", "c"), (".hpp", "cpp"), (".cs", "csharp"),
   (".go", "go"), (".rs", "rust"), (".rb", "ruby"), (".php", "php"), (".html", "html"),
   (".css", "css"), (".scss", "scss"), (".json", "json"), (".xml", "xml"), (".yml", "yaml"),
   (".yaml", "yaml"), (".md", "markdown"), (".sh", "shell"), (".bash", "bash"),
   (".ps1", "powershell"), (".sql", "sql"), (".r", "r"), (".kt", "kotlin"),
   (".swift", "swift"), (".dart", "dart"), (".vue", "vue"), (".svelte", "svelte"),
   (".toml", "toml"), (".ini", "ini"), (".cfg", "ini"), (".txt", "text"),
   ("Dockerfile", "dockerfile"), ("Makefile", "makefile")]

/-- Lookup in `LANGUAGE_MAP`, modelling Python dict lookup (the table has
no duplicate keys, so first match equals dict semantics). -/
def languageLookup (k : String) : Option String :=
  (LANGUAGE_MAP.find? (fun kv => kv.1 == k)).map (fun kv => kv.2)

/-- Model of `pathlib.PurePath.suffix`: the substring from the last dot of
the final component, provided that dot is neither the first nor the last
character of the name; otherwise the empty string (so `".gitignore"` has
suffix `""` and `"a.py"` has suffix `".py"`). -/
def pySuffix (name : String) : String :=
  match (name.data.enum.filter (fun ic => ic.2 = '.')).getLast? with
  | none => ""
  | some id0 =>
      if 0 < id0.1 ∧ id0.1 < name.data.length - 1 then String.mk (name.data.drop id0.1) else ""

/-- Embedding of `_get_language_identifier`: an exact full-name hit in
`LANGUAGE_MAP` wins, otherwise the suffix is looked up with default
`"text"`. -/
def getLanguageIdentifier (name : String) : String :=
  match languageLookup name with
  | some lang => lang
  | none => (languageLookup (pySuffix name)).getD "text"

/-- The `SEPARATOR` constant of the source: fifty `=` characters. -/
def SEPARATOR : String := String.mk (List.replicate 50 '=')

/-- The text block `_format_file_content` produces for a successfully read
file: separator, `FILE:` header with the root-relative POSIX path, second
separator, then the contents in a fenced code block tagged with the
classified language, with one newline appended before the closing fence. -/
def renderedBlock (rel : List String) (c : String) : String :=
  SEPARATOR ++ "\n" ++ "FILE: " ++ String.intercalate "/" rel ++ "\n" ++ SEPARATOR ++ "\n" ++
    "```" ++ getLanguageIdentifier (rel.getLastD "") ++ "\n" ++ c ++ "\n" ++ "```" ++ "\n"

/-- Embedding of `_format_file_content`: reading the file either succeeds
with its text (`some`) and yields the formatted block, or fails
(`UnicodeDecodeError` / `OSError`, modelled by `none`), in which case the
function prints a skip notice and returns `None`. -/
def formatFileContent (rel : List String) (content : Option String) : Option String :=
  match content with
  | none => none
  | some c => some (renderedBlock rel c)

/-- Model of `Path.is_file()`-guarded lookup of a named child: the first
child with the given name, if it is a file (its possibly-unreadable
content is returned). -/
def findFileEntry (entries : FSDir) (name : String) : Option (Option String) :=
  match (entries.find? (fun ne => ne.1 == name)).map (fun ne => ne.2) with
  | some (FSEntry.file c) => some c
  | _ => none

/-- Lookup of a named child directory. -/
def findDirEntry (entries : FSDir) (name : String) : Option FSDir :=
  match (entries.find? (fun ne => ne.1 == name)).map (fun ne => ne.2) with
  | some (FSEntry.dir es) => some es
  | _ => none

/-- Failure of `_load_gitignore_patterns`: `read_text()` on an ignore file
raised (the source does not guard these two reads, so the exception
propagates out of `ingest`). -/
inductive LoadError where
  | unreadableIgnore
deriving DecidableEq

/-- Embedding of `_load_gitignore_patterns`: collect the lines of
`<root>/.gitignore` and then of `<root>/.git/info/exclude` when each is
present as a file; when either present file is unreadable the read raises.
When at least one line was collected (even a blank one) the lines are
compiled into a rule set, otherwise no rule set is returned.  Null patterns
(blank and comment lines) are dropped at compilation here; `pathspec` keeps
them but ignores them during matching, which is equivalent. -/
def loadGitignorePatterns (root : FSDir) : Except LoadError (Option PathSpec) :=
  let giLines : Except LoadError (List String) :=
    match findFileEntry root ".gitignore" with
    | none => .ok []
    | some none => .error .unreadableIgnore
    | some (some text) => .ok (pySplitlines text)
  let exLines : Except LoadError (List String) :=
    match (findDirEntry root ".git").bind (fun ges => findDirEntry ges "info") with
    | none => .ok []
    | some ies =>
        match findFileEntry ies "exclude" with
        | none => .ok []
        | some none => .error .unreadableIgnore
        | some (some text) => .ok (pySplitlines text)
  match giLines, exLines with
  | .error e, _ => .error e
  | .ok _, .error e => .error e
  | .ok l1, .ok l2 =>
      let patterns := l1 ++ l2
      if patterns.isEmpty then .ok none else .ok (some (patterns.filterMap gitWildCompile))

/-- The check path the tree walk hands to the rule set for one entry: the
root-relative POSIX path, with a trailing `/` appended when the entry is a
directory. -/
def checkPathStr (rel : List String) (e : FSEntry) : String :=
  if e.isDir then String.intercalate "/" rel ++ "/" else String.intercalate "/" rel

/-- The `filtered` list the tree walk builds for one directory: the entries
sorted by name, with the hardcoded `.git` name skipped first and entries
matched by the rule set skipped second. -/
def filterEntries (spec : Option PathSpec) (rel : List String) (entries : FSDir) : FSDir :=
  (sortByFst entries).filter fun ne =>
    ne.1 != ".git" && !(specMatchOpt spec (checkPathStr (rel ++ [ne.1]) ne.2))

/-- Embedding of the recursive `walk` closure of `_build_ascii_tree`: for
each kept entry, one line with the ancestor prefix, the `└── ` connector
for the last kept sibling and `├── ` otherwise, and the bare name; a kept
directory is then walked with its prefix extended by `    ` after a last
sibling and `│   ` otherwise.  The fuel argument only serves termination;
the pipeline below supplies `fsDirSize` of the root, which always exceeds the
directory depth. -/
def walkF (fuel : Nat) (spec : Option PathSpec) (rel : List String) (pre : String)
    (entries : FSDir) : List String :=
  match fuel with
  | 0 => []
  | fuel + 1 =>
      let filtered := filterEntries spec rel entries
      filtered.enum.flatMap fun ie =>
        (pre ++ (if ie.1 == filtered.length - 1 then "└── " else "├── ") ++ ie.2.1) ::
          (match ie.2.2 with
           | FSEntry.dir es =>
               walkF fuel spec (rel ++ [ie.2.1])
                 (pre ++ (if ie.1 == filtered.length - 1 then "    " else "│   ")) es
           | FSEntry.file _ => [])

/-- Shadow of `walkF` that records, for each rendered entry, its
root-relative path with its directory flag together with the rendered
line.  `walkF` is proved below to be its line projection. -/
def treeNodesF (fuel : Nat) (spec : Option PathSpec) (rel : List String) (pre : String)
    (entries : FSDir) : List ((List String × Bool) × String) :=
  match fuel with
  | 0 => []
  | fuel + 1 =>
      let filtered := filterEntries spec rel entries
      filtered.enum.flatMap fun ie =>
        ((rel ++ [ie.2.1], ie.2.2.isDir),
          pre ++ (if ie.1 == filtered.length - 1 then "└── " else "├── ") ++ ie.2.1) ::
          (match ie.2.2 with
           | FSEntry.dir es =>
               treeNodesF fuel spec (rel ++ [ie.2.1])
                 (pre ++ (if ie.1 == filtered.length - 1 then "    " else "│   ")) es
           | FSEntry.file _ => [])

/-- Embedding of `_build_ascii_tree`: the `<display_root>/` line followed
by the walk of the root directory, joined with newlines. -/
def buildAsciiTree (spec : Option PathSpec) (displayRoot : String) (root : FSDir) : String :=
  String.intercalate "\n" ((displayRoot ++ "/") :: walkF (fsDirSize root) spec [] "" root)

/-- Embedding of `os.walk(root)` (top-down): the current directory is
yielded first, with its root-relative components and its files in listing
order, followed by the walks of its subdirectories in listing order. -/
def osWalkF (fuel : Nat) (rel : List String) (entries : FSDir) :
    List (List String × List (String × Option String)) :=
  match fuel with
  | 0 => []
  | fuel + 1 =>
      (rel, entries.filterMap fun ne =>
        match ne.2 with
        | FSEntry.file c => some (ne.1, c)
        | FSEntry.dir _ => none) ::
      (entries.filterMap fun ne =>
        match ne.2 with
        | FSEntry.dir es => some (ne.1, es)
        | FSEntry.file _ => none).flatMap fun nes => osWalkF fuel (rel ++ [nes.1]) nes.2

/-- One step of the content loop of `_process_directory` for one directory
yielded by `os.walk`: a directory whose path contains a `.git` component is
skipped whole; otherwise each file whose relative path the rule set
matches is skipped, and each remaining file yields either its formatted
block or (when unreadable) a skip diagnostic carrying its path. -/
def contentStep (spec : Option PathSpec) (acc : List String × List (List String))
    (de : List String × List (String × Option String)) : List String × List (List String) :=
  if de.1.contains ".git" then acc
  else de.2.foldl (fun acc2 fc =>
    if specMatchOpt spec (String.intercalate "/" (de.1 ++ [fc.1])) then acc2
    else
      match formatFileContent (de.1 ++ [fc.1]) fc.2 with
      | some b => (acc2.1 ++ [b], acc2.2)
      | none => (acc2.1, acc2.2 ++ [de.1 ++ [fc.1]])) acc

/-- The content half of `_process_directory`: the rendered blocks in
traversal order together with the skip diagnostics, accumulated over the
`os.walk` traversal of the root. -/
def contentBlocksAndDiags (spec : Option PathSpec) (root : FSDir) :
    List String × List (List String) :=
  (osWalkF (fsDirSize root) [] root).foldl (contentStep spec) ([], [])

/-- The files of one `os.walk` entry that receive a block: path and text of
every readable file of a directory not inside `.git`, with the rule-set
matches removed. -/
def dirIncludedFiles (spec : Option PathSpec)
    (de : List String × List (String × Option String)) : List (List String × String) :=
  if de.1.contains ".git" then []
  else de.2.filterMap fun fc =>
    if specMatchOpt spec (String.intercalate "/" (de.1 ++ [fc.1])) then none
    else
      match fc.2 with
      | some c => some (de.1 ++ [fc.1], c)
      | none => none

/-- The unreadable files of one `os.walk` entry that are diagnosed and
skipped. -/
def dirSkipped (spec : Option PathSpec)
    (de : List String × List (String × Option String)) : List (List String) :=
  if de.1.contains ".git" then []
  else de.2.filterMap fun fc =>
    if specMatchOpt spec (String.intercalate "/" (de.1 ++ [fc.1])) then none
    else
      match fc.2 with
      | some _ => none
      | none => some (de.1 ++ [fc.1])

/-- The files that receive a block: path and text of every readable file
not inside a `.git` directory and not matched by the rule set, in traversal
order.  Proved below to generate exactly the rendered blocks. -/
def includedContentFiles (spec : Option PathSpec) (root : FSDir) : List (List String × String) :=
  (osWalkF (fsDirSize root) [] root).flatMap (dirIncludedFiles spec)

/-- The paths of the unreadable files that are diagnosed and skipped, in
traversal order. -/
def skippedFiles (spec : Option PathSpec) (root : FSDir) : List (List String) :=
  (osWalkF (fsDirSize root) [] root).flatMap (dirSkipped spec)

/-- Embedding of `_process_directory`: load the rule set once (its read may
raise), build the tree against it, then render the contents against the
same rule set; returns the tree string, the blocks joined by one newline,
and the skip diagnostics. -/
def processDirectory (root : FSDir) (displayRoot : String) :
    Except LoadError (String × String × List (List String)) :=
  match loadGitignorePatterns root with
  | .error e => .error e
  | .ok spec =>
      let tree := buildAsciiTree spec displayRoot root
      let cd := contentBlocksAndDiags spec root
      .ok (tree, String.intercalate "\n" cd.1, cd.2)

/-- Model of `Path(source).name`: the final slash-separated component. -/
def pyName (s : String) : String := (pySplitChar '/' s).getLastD ""

/-- Model of `Path(source).stem`: the final component without its suffix. -/
def pyStem (s : String) : String :=
  pyStrDropRight (pyName s) (pySuffix (pyName s)).data.length

/-- The error outcomes of `ingest`: a failed clone of a remote source, the
`ValueError` for a missing or non-directory local path, and a propagated
ignore-file read failure. -/
inductive IngestError where
  | cloneFailed (source : String)
  | rootNotFound (msg : String)
  | unreadableIgnore
deriving DecidableEq

/-- Embedding of `ingest`.  The collaborators excluded by the spec are
abstracted: `clone` models the shallow `git clone` of a URL source (with
`none` for a clone failure), `localDir` models `Path(source).resolve()`
followed by `is_dir()` (with `none` when the path does not exist or is not
a directory, and otherwise the directory's content), and `displayOf`
models `_get_contextual_display_path`, which consults the ambient git
checkout.  A source is treated as a URL exactly when it starts with
`"http"` or `"git@"`; the final digest concatenates the two sections. -/
def ingest (clone : String → Option FSDir) (localDir : String → Option FSDir)
    (displayOf : String → String) (source : String) : Except IngestError String :=
  if pyStartsWith source "http" || pyStartsWith source "git@" then
    match clone source with
    | none => .error (.cloneFailed source)
    | some repo =>
        match processDirectory repo (pyStem source) with
        | .error _ => .error .unreadableIgnore
        | .ok tcd =>
            .ok ("Directory structure:\n" ++ tcd.1 ++ "\n\n" ++
              "File contents:\n\n" ++ tcd.2.1)
  else
    match localDir source with
    | none => .error (.rootNotFound ("Local path not found or not a directory: " ++ source))
    | some repo =>
        match processDirectory repo (displayOf source) with
        | .error _ => .error .unreadableIgnore
        | .ok tcd =>
            .ok ("Directory structure:\n" ++ tcd.1 ++ "\n\n" ++
              "File contents:\n\n" ++ tcd.2.1)

/-! ### Order lemmas for the name comparison used by the sort -/

theorem charListLt_irrefl : ∀ (a : List Char), charListLt a a = false
  | [] => rfl
  | a :: as => by
      simp only [charListLt]
      rw [if_neg (by omega), if_neg (by omega)]
      exact charListLt_irrefl as

theorem charListLt_trans : ∀ {a b c : List Char},
    charListLt a b = true → charListLt b c = true → charListLt a c = true
  | [], [], [], hab, _ => by simp [charListLt] at hab
  | [], [], _ :: _, _, _ => rfl
  | [], _ :: _, [], _, hbc => by simp [charListLt] at hbc
  | [], _ :: _, _ :: _, _, _ => rfl
  | _ :: _, [], _, hab, _ => by simp [charListLt] at hab
  | _ :: _, _ :: _, [], _, hbc => by simp [charListLt] at hbc
  | a :: as, b :: bs, c :: cs, hab, hbc => by
      simp only [charListLt] at hab hbc ⊢
      rcases Nat.lt_trichotomy a.toNat b.toNat with h1 | h1 | h1
      · rcases Nat.lt_trichotomy b.toNat c.toNat with h2 | h2 | h2
        · rw [if_pos (by omega)]
        · rw [if_pos (by omega)]
        · rw [if_neg (by omega), if_pos (by omega)] at hbc
          exact absurd hbc (by simp)
      · rw [if_neg (by omega), if_neg (by omega)] at hab
        rcases Nat.lt_trichotomy b.toNat c.toNat with h2 | h2 | h2
        · rw [if_pos (by omega)]
        · rw [if_neg (by omega), if_neg (by omega)] at hbc
          rw [if_neg (by omega), if_neg (by omega)]
          exact charListLt_trans hab hbc
        · rw [if_neg (by omega), if_pos (by omega)] at hbc
          exact absurd hbc (by simp)
      · rw [if_neg (by omega), if_pos (by omega)] at hab
        exact absurd hab (by simp)

theorem charListLt_asymm : ∀ {a b : List Char},
    charListLt a b = true → charListLt b a = false
  | [], [], hab => by simp [charListLt] at hab
  | [], _ :: _, _ => rfl
  | _ :: _, [], hab => by simp [charListLt] at hab
  | a :: as, b :: bs, hab => by
      simp only [charListLt] at hab ⊢
      rcases Nat.lt_trichotomy a.toNat b.toNat with h1 | h1 | h1
      · rw [if_neg (by omega), if_pos (by omega)]
      · rw [if_neg (by omega), if_neg (by omega)] at hab
        rw [if_neg (by omega), if_neg (by omega)]
        exact charListLt_asymm hab
      · rw [if_neg (by omega), if_pos (by omega)] at hab
        exact absurd hab (by simp)

theorem charListLt_trichot : ∀ (a b : List Char),
    charListLt a b = true ∨ charListLt b a = true ∨ a = b
  | [], [] => Or.inr (Or.inr rfl)
  | [], _ :: _ => Or.inl rfl
  | _ :: _, [] => Or.inr (Or.inl rfl)
  | a :: as, b :: bs => by
      rcases Nat.lt_trichotomy a.toNat b.toNat with h1 | h1 | h1
      · exact Or.inl (by simp only [charListLt]; rw [if_pos (by omega)])
      · have hab : a = b := Char.ext (by
          apply UInt32.ext
          simpa [Char.toNat] using h1)
        rcases charListLt_trichot as bs with h | h | h
        · exact Or.inl (by
            simp only [charListLt]
            rw [if_neg (by omega), if_neg (by omega)]
            exact h)
        · exact Or.inr (Or.inl (by
            simp only [charListLt]
            rw [if_neg (by omega), if_neg (by omega)]
            exact h))
        · exact Or.inr (Or.inr (by rw [hab, h]))
      · exact Or.inr (Or.inl (by simp only [charListLt]; rw [if_pos (by omega)]))

theorem strLeB_total (a b : String) : strLeB a b = true ∨ strLeB b a = true := by
  simp only [strLeB, Bool.not_eq_true']
  rcases charListLt_trichot a.data b.data with h | h | h
  · exact Or.inl (charListLt_asymm h)
  · exact Or.inr (charListLt_asymm h)
  · exact Or.inl (by rw [h, charListLt_irrefl])

theorem strLeB_trans {a b c : String} (h1 : strLeB a b = true) (h2 : strLeB b c = true) :
    strLeB a c = true := by
  simp only [strLeB, Bool.not_eq_true'] at h1 h2 ⊢
  by_contra hca
  rw [Bool.not_eq_false] at hca
  rcases charListLt_trichot b.data c.data with h | h | h
  · have := charListLt_trans h hca
    rw [this] at h1
    exact absurd h1 (by simp)
  · rw [h] at h2
    exact absurd h2 (by simp)
  · rw [h] at h1
    rw [hca] at h1
    exact absurd h1 (by simp)

theorem strLeB_of_not {a b : String} (h : ¬ strLeB a b = true) : strLeB b a = true := by
  rcases strLeB_total a b with h1 | h1
  · exact absurd h1 h
  · exact h1

theorem charListLt_of_strLeB_of_ne {a b : String} (hle : strLeB a b = true) (hne : a ≠ b) :
    charListLt a.data b.data = true := by
  simp only [strLeB, Bool.not_eq_true'] at hle
  rcases charListLt_trichot a.data b.data with h | h | h
  · exact h
  · rw [h] at hle
    exact absurd hle (by simp)
  · exact absurd (congrArg String.mk (by simpa using h)) (by simpa using hne)

/-! ### Lemmas about the stable sort -/

theorem mem_insertByFst {α : Type} {x y : String × α} :
    ∀ {l : List (String × α)}, y ∈ insertByFst x l ↔ y = x ∨ y ∈ l
  | [] => by simp [insertByFst]
  | z :: zs => by
      simp only [insertByFst]
      by_cases h : strLeB x.1 z.1 = true
      · rw [if_pos h]
        simp only [List.mem_cons]
      · rw [if_neg h]
        simp only [List.mem_cons, mem_insertByFst (l := zs)]
        tauto

theorem insertByFst_perm {α : Type} (x : String × α) :
    ∀ (l : List (String × α)), (insertByFst x l).Perm (x :: l)
  | [] => List.Perm.refl _
  | z :: zs => by
      simp only [insertByFst]
      by_cases h : strLeB x.1 z.1 = true
      · rw [if_pos h]
      · rw [if_neg h]
        exact ((insertByFst_perm x zs).cons z).trans (List.Perm.swap x z zs)

theorem sortByFst_perm {α : Type} : ∀ (l : List (String × α)), (sortByFst l).Perm l
  | [] => List.Perm.refl _
  | x :: xs => (insertByFst_perm x (sortByFst xs)).trans ((sortByFst_perm xs).cons x)

theorem pairwise_insertByFst {α : Type} {x : String × α} :
    ∀ {l : List (String × α)}, l.Pairwise (fun a b => strLeB a.1 b.1 = true) →
      (insertByFst x l).Pairwise (fun a b => strLeB a.1 b.1 = true)
  | [], _ => by simp [insertByFst]
  | z :: zs, h => by
      simp only [insertByFst]
      rcases List.pairwise_cons.mp h with ⟨hz, hzs⟩
      by_cases hc : strLeB x.1 z.1 = true
      · rw [if_pos hc]
        refine List.pairwise_cons.mpr ⟨?_, h⟩
        intro y hy
        rcases List.mem_cons.mp hy with rfl | hy
        · exact hc
        · exact strLeB_trans hc (hz y hy)
      · rw [if_neg hc]
        refine List.pairwise_cons.mpr ⟨?_, pairwise_insertByFst hzs⟩
        intro y hy
        rcases mem_insertByFst.mp hy with rfl | hy
        · exact strLeB_of_not hc
        · exact hz y hy

theorem pairwise_sortByFst {α : Type} :
    ∀ (l : List (String × α)), (sortByFst l).Pairwise (fun a b => strLeB a.1 b.1 = true)
  | [] => List.Pairwise.nil
  | x :: xs => pairwise_insertByFst (pairwise_sortByFst xs)

/-! ### Enumeration helpers -/

theorem mem_enumFrom_imp {α : Type} {x : Nat × α} :
    ∀ {l : List α} {n : Nat}, x ∈ l.enumFrom n → x.2 ∈ l
  | [], _, h => by simp [List.enumFrom] at h
  | a :: as, n, h => by
      simp only [List.enumFrom, List.mem_cons] at h
      rcases h with rfl | h
      · exact List.mem_cons_self _ _
      · exact List.mem_cons_of_mem _ (mem_enumFrom_imp h)

theorem mem_enum_imp {α : Type} {x : Nat × α} {l : List α} (h : x ∈ l.enum) : x.2 ∈ l :=
  mem_enumFrom_imp h

theorem exists_mem_enumFrom {α : Type} {a : α} :
    ∀ {l : List α}, a ∈ l → ∀ (n : Nat), ∃ i, (i, a) ∈ l.enumFrom n
  | [], h, _ => absurd h (List.not_mem_nil a)
  | b :: bs, h, n => by
      rcases List.mem_cons.mp h with rfl | h
      · exact ⟨n, by simp [List.enumFrom]⟩
      · obtain ⟨i, hi⟩ := exists_mem_enumFrom h (n + 1)
        exact ⟨i, by simp [List.enumFrom, List.mem_cons, hi]⟩

theorem exists_mem_enum {α : Type} {a : α} {l : List α} (h : a ∈ l) : ∃ i, (i, a) ∈ l.enum :=
  exists_mem_enumFrom h 0

/-! ### The filtered entry list of the tree walk -/

theorem mem_filterEntries {spec : Option PathSpec} {rel : List String} {entries : FSDir}
    {ne : String × FSEntry} :
    ne ∈ filterEntries spec rel entries ↔
      ne ∈ entries ∧ ne.1 ≠ ".git" ∧
        specMatchOpt spec (checkPathStr (rel ++ [ne.1]) ne.2) = false := by
  unfold filterEntries
  rw [List.mem_filter, (sortByFst_perm entries).mem_iff]
  simp [Bool.and_eq_true, bne_iff_ne, Bool.not_eq_true', and_assoc]

theorem pairwise_lt_filterEntries (spec : Option PathSpec) (rel : List String) {entries : FSDir}
    (h : (entries.map Prod.fst).Nodup) :
    ((filterEntries spec rel entries).map Prod.fst).Pairwise
      (fun a b => charListLt a.data b.data = true) := by
  have hperm : ((sortByFst entries).map Prod.fst).Perm (entries.map Prod.fst) :=
    (sortByFst_perm entries).map Prod.fst
  have hnodup : ((sortByFst entries).map Prod.fst).Nodup := hperm.symm.nodup h
  have hfille : (filterEntries spec rel entries).Pairwise (fun a b => strLeB a.1 b.1 = true) := by
    unfold filterEntries
    exact (pairwise_sortByFst entries).filter _
  have hfilnodup : ((filterEntries spec rel entries).map Prod.fst).Nodup := by
    unfold filterEntries
    exact ((List.filter_sublist _).map Prod.fst).nodup hnodup
  have hfilne : (filterEntries spec rel entries).Pairwise (fun a b => a.1 ≠ b.1) :=
    List.pairwise_map.mp hfilnodup
  exact List.pairwise_map.mpr
    ((hfille.and hfilne).imp (fun hab => charListLt_of_strLeB_of_ne hab.1 hab.2))

/-! ### Grounding of the tree walk in its node shadow -/

theorem walkF_eq_treeNodesF :
    ∀ (fuel : Nat) (spec : Option PathSpec) (rel : List String) (pre : String) (entries : FSDir),
      walkF fuel spec rel pre entries = (treeNodesF fuel spec rel pre entries).map Prod.snd
  | 0, _, _, _, _ => rfl
  | fuel + 1, spec, rel, pre, entries => by
      simp only [walkF, treeNodesF, List.map_flatMap]
      apply List.flatMap_congr
      rintro ⟨i, name, e⟩ hie
      cases e with
      | file c => simp
      | dir es => simp [walkF_eq_treeNodesF fuel]

/-- Every node of the rendered tree passed the ignore check the walk made
for it: the rule set does not match its check path (path with a trailing
slash for a directory, the bare path for a file). -/
theorem treeNodesF_not_matched :
    ∀ (fuel : Nat) (spec : Option PathSpec) (rel : List String) (pre : String) (entries : FSDir)
      (nd : (List String × Bool) × String), nd ∈ treeNodesF fuel spec rel pre entries →
      specMatchOpt spec
        (if nd.1.2 then String.intercalate "/" nd.1.1 ++ "/" else String.intercalate "/" nd.1.1)
        = false
  | 0, _, _, _, _, _, h => by simp [treeNodesF] at h
  | fuel + 1, spec, rel, pre, entries, nd, h => by
      simp only [treeNodesF, List.mem_flatMap] at h
      obtain ⟨ie, hie, hnd⟩ := h
      obtain ⟨i, name, e⟩ := ie
      rcases List.mem_cons.mp hnd with rfl | hnd
      · have hmem := mem_filterEntries.mp (mem_enum_imp hie)
        simpa [checkPathStr] using hmem.2.2
      · cases e with
        | file c => simp at hnd
        | dir es => exact treeNodesF_not_matched fuel spec _ _ es nd hnd

/-- No node of the rendered tree has a `.git` component in its path: the
walk skips entries named `.git` before consulting the rule set. -/
theorem treeNodesF_no_git :
    ∀ (fuel : Nat) (spec : Option PathSpec) (rel : List String) (pre : String) (entries : FSDir)
      (nd : (List String × Bool) × String), ".git" ∉ rel →
      nd ∈ treeNodesF fuel spec rel pre entries → ".git" ∉ nd.1.1
  | 0, _, _, _, _, _, _, h => by simp [treeNodesF] at h
  | fuel + 1, spec, rel, pre, entries, nd, hrel, h => by
      simp only [treeNodesF, List.mem_flatMap] at h
      obtain ⟨ie, hie, hnd⟩ := h
      obtain ⟨i, name, e⟩ := ie
      have hmem := mem_filterEntries.mp (mem_enum_imp hie)
      rcases List.mem_cons.mp hnd with rfl | hnd
      · simp only [List.mem_append, List.mem_singleton]
        rintro (hgit | hgit)
        · exact hrel hgit
        · exact hmem.2.1 hgit.symm
      · cases e with
        | file c => simp at hnd
        | dir es =>
            refine treeNodesF_no_git fuel spec (rel ++ [name]) _ es nd ?_ hnd
            simp only [List.mem_append, List.mem_singleton]
            rintro (hgit | hgit)
            · exact hrel hgit
            · exact hmem.2.1 hgit.symm

/-! ### The content traversal and its characterization -/

theorem contentStep_eq (spec : Option PathSpec) (acc : List String × List (List String))
    (de : List String × List (String × Option String)) :
    contentStep spec acc de =
      (acc.1 ++ (dirIncludedFiles spec de).map (fun pc => renderedBlock pc.1 pc.2),
       acc.2 ++ dirSkipped spec de) := by
  obtain ⟨dpath, files⟩ := de
  obtain ⟨b, d⟩ := acc
  unfold contentStep dirIncludedFiles dirSkipped
  by_cases hg : dpath.contains ".git" = true
  · rw [if_pos hg, if_pos hg, if_pos hg]
    simp
  · rw [if_neg hg, if_neg hg, if_neg hg]
    simp only
    induction files generalizing b d with
    | nil => simp
    | cons fc rest ih =>
        simp only [List.foldl_cons, List.filterMap_cons]
        by_cases hm : specMatchOpt spec (String.intercalate "/" (dpath ++ [fc.1])) = true
        · rw [if_pos hm, if_pos hm, if_pos hm]
          exact ih b d
        · rw [if_neg hm, if_neg hm, if_neg hm]
          cases hc : fc.2 with
          | some c =>
              simp only [formatFileContent] at ih ⊢
              rw [ih (b ++ [renderedBlock (dpath ++ [fc.1]) c]) d]
              simp
          | none =>
              simp only [formatFileContent] at ih ⊢
              rw [ih b (d ++ [dpath ++ [fc.1]])]
              simp

theorem foldl_contentStep (spec : Option PathSpec) :
    ∀ (L : List (List String × List (String × Option String))) (b : List String)
      (d : List (List String)),
      L.foldl (contentStep spec) (b, d) =
        (b ++ (L.flatMap (dirIncludedFiles spec)).map (fun pc => renderedBlock pc.1 pc.2),
         d ++ L.flatMap (dirSkipped spec))
  | [], b, d => by simp
  | de :: rest, b, d => by
      simp only [List.foldl_cons, contentStep_eq, List.flatMap_cons, List.map_append]
      rw [foldl_contentStep spec rest]
      simp [List.append_assoc]

/-- Grounding of the content section: the rendered blocks are exactly the
formatted blocks of the included readable files, and the diagnostics are
exactly the skipped unreadable files. -/
theorem contentBlocksAndDiags_eq (spec : Option PathSpec) (root : FSDir) :
    contentBlocksAndDiags spec root =
      ((includedContentFiles spec root).map (fun pc => renderedBlock pc.1 pc.2),
        skippedFiles spec root) := by
  unfold contentBlocksAndDiags includedContentFiles skippedFiles
  rw [foldl_contentStep]
  simp

theorem mem_includedContentFiles_intro {spec : Option PathSpec} {root : FSDir}
    {dpath : List String} {files : List (String × Option String)} {fname : String} {c : String}
    (hw : (dpath, files) ∈ osWalkF (fsDirSize root) [] root)
    (hf : (fname, some c) ∈ files)
    (hg : dpath.contains ".git" = false)
    (hm : specMatchOpt spec (String.intercalate "/" (dpath ++ [fname])) = false) :
    (dpath ++ [fname], c) ∈ includedContentFiles spec root := by
  unfold includedContentFiles
  rw [List.mem_flatMap]
  refine ⟨(dpath, files), hw, ?_⟩
  unfold dirIncludedFiles
  rw [if_neg (ne_true_of_eq_false hg)]
  rw [List.mem_filterMap]
  refine ⟨(fname, some c), hf, ?_⟩
  rw [if_neg (ne_true_of_eq_false hm)]

theorem mem_skippedFiles_intro {spec : Option PathSpec} {root : FSDir}
    {dpath : List String} {files : List (String × Option String)} {fname : String}
    (hw : (dpath, files) ∈ osWalkF (fsDirSize root) [] root)
    (hf : (fname, (none : Option String)) ∈ files)
    (hg : dpath.contains ".git" = false)
    (hm : specMatchOpt spec (String.intercalate "/" (dpath ++ [fname])) = false) :
    (dpath ++ [fname]) ∈ skippedFiles spec root := by
  unfold skippedFiles
  rw [List.mem_flatMap]
  refine ⟨(dpath, files), hw, ?_⟩
  unfold dirSkipped
  rw [if_neg (ne_true_of_eq_false hg)]
  rw [List.mem_filterMap]
  refine ⟨(fname, none), hf, ?_⟩
  rw [if_neg (ne_true_of_eq_false hm)]

/-- Provenance of an included content file: it was listed by the walk in a
directory free of `.git` components, was read successfully, and its
relative path is not matched by the rule set. -/
theorem includedContentFiles_spec {spec : Option PathSpec} {root : FSDir}
    {pc : List String × String} (h : pc ∈ includedContentFiles spec root) :
    ∃ dpath files fname, (dpath, files) ∈ osWalkF (fsDirSize root) [] root ∧
      (fname, some pc.2) ∈ files ∧ pc.1 = dpath ++ [fname] ∧
      dpath.contains ".git" = false ∧
      specMatchOpt spec (String.intercalate "/" pc.1) = false := by
  unfold includedContentFiles at h
  rw [List.mem_flatMap] at h
  obtain ⟨de, hde, hpc⟩ := h
  unfold dirIncludedFiles at hpc
  by_cases hg : de.1.contains ".git" = true
  · rw [if_pos hg] at hpc
    exact absurd hpc (List.not_mem_nil pc)
  · rw [if_neg hg] at hpc
    rw [List.mem_filterMap] at hpc
    obtain ⟨fc, hfc, heq⟩ := hpc
    by_cases hm : specMatchOpt spec (String.intercalate "/" (de.1 ++ [fc.1])) = true
    · rw [if_pos hm] at heq
      exact absurd heq (by simp)
    · rw [if_neg hm] at heq
      cases hc : fc.2 with
      | none =>
          rw [hc] at heq
          exact absurd heq (by simp)
      | some c =>
          rw [hc] at heq
          obtain rfl : (de.1 ++ [fc.1], c) = pc := by simpa using heq
          refine ⟨de.1, de.2, fc.1, by simpa using hde, by rw [← hc]; exact hfc, rfl,
            by simpa using hg, by simpa using hm⟩

theorem includedContentFiles_no_git {spec : Option PathSpec} {root : FSDir}
    {pc : List String × String} (h : pc ∈ includedContentFiles spec root) :
    ".git" ∉ pc.1.dropLast := by
  obtain ⟨dpath, files, fname, -, -, hpath, hg, -⟩ := includedContentFiles_spec h
  rw [hpath, List.dropLast_concat]
  simpa using hg

theorem osWalkF_extends :
    ∀ (fuel : Nat) (rel : List String) (entries : FSDir) {dpath : List String}
      {files : List (String × Option String)},
      (dpath, files) ∈ osWalkF fuel rel entries → rel <+: dpath
  | 0, _, _, _, _, h => by simp [osWalkF] at h
  | fuel + 1, rel, entries, dpath, files, h => by
      simp only [osWalkF, List.mem_cons, List.mem_flatMap] at h
      rcases h with heq | ⟨nes, hnes, hmem⟩
      · obtain ⟨rfl, -⟩ := Prod.mk.injEq _ _ _ _ ▸ heq
        exact List.prefix_rfl
      · exact (List.prefix_append rel [nes.1]).trans (osWalkF_extends fuel (rel ++ [nes.1]) nes.2 hmem)

/-- A file reached by `os.walk` whose own path and all ancestor directory
check paths pass the rule set, with no `.git` component anywhere, is
rendered as a node of the tree walk over the same directory. -/
theorem treeNodesF_reach :
    ∀ (fuel : Nat) (spec : Option PathSpec) (rel : List String) (pre : String) (entries : FSDir)
      (tl : List String) (files : List (String × Option String)) (fname : String)
      (c : Option String),
      (rel ++ tl, files) ∈ osWalkF fuel rel entries →
      (fname, c) ∈ files →
      (∀ q, q <+: tl → q ≠ [] →
        specMatchOpt spec (String.intercalate "/" (rel ++ q) ++ "/") = false) →
      ".git" ∉ tl → fname ≠ ".git" →
      specMatchOpt spec (String.intercalate "/" (rel ++ tl ++ [fname])) = false →
      ∃ ln, ((rel ++ tl ++ [fname], false), ln) ∈ treeNodesF fuel spec rel pre entries
  | 0, _, _, _, _, _, _, _, _, hmem, _, _, _, _, _ => by simp [osWalkF] at hmem
  | fuel + 1, spec, rel, pre, entries, tl, files, fname, c, hmem, hf, hanc, hgit, hfname,
      hmatch => by
      simp only [osWalkF, List.mem_cons, List.mem_flatMap] at hmem
      rcases hmem with heq | ⟨nes, hnes, hmem⟩
      · have hpath : rel ++ tl = rel := congrArg Prod.fst heq
        have htl : tl = [] := by simpa using hpath
        subst htl
        have hfiles : files = entries.filterMap fun ne =>
            match ne.2 with
            | FSEntry.file c => some (ne.1, c)
            | FSEntry.dir _ => none := congrArg Prod.snd heq
        rw [hfiles, List.mem_filterMap] at hf
        have hne' : (fname, FSEntry.file c) ∈ entries := by
          obtain ⟨ne, hne, hsome⟩ := hf
          obtain ⟨n, e⟩ := ne
          cases e with
          | dir es => exact absurd hsome (by simp)
          | file c' =>
              obtain ⟨h1, h2⟩ : n = fname ∧ c' = c := by simpa using hsome
              rw [← h1, ← h2]
              exact hne
        have hfil : (fname, FSEntry.file c) ∈ filterEntries spec rel entries := by
          refine mem_filterEntries.mpr ⟨hne', hfname, ?_⟩
          simpa [checkPathStr, FSEntry.isDir] using hmatch
        obtain ⟨i, hienum⟩ := exists_mem_enum hfil
        refine ⟨pre ++ (if i == (filterEntries spec rel entries).length - 1
          then "└── " else "├── ") ++ fname, ?_⟩
        simp only [treeNodesF, List.mem_flatMap]
        refine ⟨(i, (fname, FSEntry.file c)), hienum, ?_⟩
        simp [FSEntry.isDir]
      · obtain ⟨nn, es⟩ := nes
        rw [List.mem_filterMap] at hnes
        have hne' : (nn, FSEntry.dir es) ∈ entries := by
          obtain ⟨ne, hne, hsome⟩ := hnes
          obtain ⟨n, e⟩ := ne
          cases e with
          | file c' => exact absurd hsome (by simp)
          | dir es' =>
              obtain ⟨h1, h2⟩ : n = nn ∧ es' = es := by simpa using hsome
              rw [← h1, ← h2]
              exact hne
        have hpref : rel ++ [nn] <+: rel ++ tl := osWalkF_extends fuel _ _ hmem
        rw [List.prefix_append_right_inj] at hpref
        obtain ⟨tl', rfl⟩ := hpref
        have hnn_git : nn ≠ ".git" := by
          intro hc
          exact hgit (by simp [hc])
        have hgit' : ".git" ∉ tl' := by
          intro hc
          exact hgit (by simp [hc])
        have hcheck : specMatchOpt spec (String.intercalate "/" (rel ++ [nn]) ++ "/") = false :=
          hanc [nn] ⟨tl', rfl⟩ (by simp)
        have hfil : (nn, FSEntry.dir es) ∈ filterEntries spec rel entries := by
          refine mem_filterEntries.mpr ⟨hne', hnn_git, ?_⟩
          simpa [checkPathStr, FSEntry.isDir] using hcheck
        obtain ⟨i, hienum⟩ := exists_mem_enum hfil
        have hmem' : ((rel ++ [nn]) ++ tl', files) ∈ osWalkF fuel (rel ++ [nn]) es := by
          rw [← List.append_cons]
          exact hmem
        have hanc' : ∀ q, q <+: tl' → q ≠ [] →
            specMatchOpt spec (String.intercalate "/" ((rel ++ [nn]) ++ q) ++ "/") = false := by
          intro q hq hqne
          rw [← List.append_cons]
          exact hanc (nn :: q) (List.cons_prefix_cons.mpr ⟨rfl, hq⟩) (by simp)
        have hmatch' :
            specMatchOpt spec (String.intercalate "/" ((rel ++ [nn]) ++ tl' ++ [fname])) = false := by
          rw [← List.append_cons]
          exact hmatch
        obtain ⟨ln, hln⟩ := treeNodesF_reach fuel spec (rel ++ [nn])
          (pre ++ (if i == (filterEntries spec rel entries).length - 1
            then "    " else "│   ")) es tl' files fname c hmem' hf hanc' hgit' hfname hmatch'
        refine ⟨ln, ?_⟩
        simp only [treeNodesF, List.mem_flatMap]
        refine ⟨(i, (nn, FSEntry.dir es)), hienum, ?_⟩
        refine List.mem_cons_of_mem _ ?_
        simpa using hln

/-! ### Concrete fixtures for the claims -/

/-- The rule set a successful load produces (used to name the loaded rule
set of a concrete root in the claims below). -/
def loadedSpec (root : FSDir) : Option PathSpec :=
  match loadGitignorePatterns root with
  | .ok s => s
  | .error _ => none

/-- Root with a `.gitignore` ignoring `a.txt` and the file `a.txt`. -/
def fsC1 : FSDir := [(".gitignore", .file (some "a.txt")), ("a.txt", .file (some "z"))]

/-- Root whose `.gitignore` excludes `sub/` and re-includes `sub/b.txt`. -/
def fsC2 : FSDir :=
  [(".gitignore", .file (some "sub/\n!sub/b.txt")),
   ("sub", .dir [("b.txt", .file (some "hi"))])]

/-- Root whose `.gitignore` excludes and then re-includes `keep.txt`. -/
def fsC2w : FSDir :=
  [(".gitignore", .file (some "keep.txt\n!keep.txt")),
   ("keep.txt", .file (some "k"))]

/-- The root of the spec's concrete scenario: `a.py`, `sub/b.txt` and a
`.gitignore` containing `sub/`. -/
def fsC3 : FSDir :=
  [(".gitignore", .file (some "sub/")),
   ("a.py", .file (some "x=1")),
   ("sub", .dir [("b.txt", .file (some "hi"))])]

/-- Root holding a `.git` directory with content, next to a normal file. -/
def fsC6 : FSDir := [(".git", .dir [("config", .file (some "x"))]), ("m.py", .file (some "1"))]

/-- Root with one unreadable file and one readable file. -/
def fsC8 : FSDir := [("bin.dat", .file none), ("ok.py", .file (some "1"))]

/-- A clone collaborator that always fails. -/
def cloneNoneW : String → Option FSDir := fun _ => none

/-- A local resolver exposing the single directory `repo`, whose
`.gitignore` exists but cannot be read. -/
def localC7 : String → Option FSDir :=
  fun s => if s = "repo" then some [(".gitignore", FSEntry.file none)] else none

/-- A local resolver exposing the scenario root `fsC3` under the name
`d`. -/
def localC5 : String → Option FSDir := fun s => if s = "d" then some fsC3 else none

/-! ### The claims -/

/-- C1: a file whose root-relative path the loaded ignore rule set matches
(final last-match-wins verdict) appears neither as a node of the tree walk
(whose lines are exactly the node lines, by `walkF_eq_treeNodesF`) nor
among the files rendered in the content section. -/
theorem claim_C1 (root : FSDir) (spec : Option PathSpec) (p : List String)
    (hload : loadGitignorePatterns root = .ok spec)
    (hmatch : specMatchOpt spec (String.intercalate "/" p) = true) :
    (∀ nd ∈ treeNodesF (fsDirSize root) spec [] "" root, nd.1 ≠ (p, false)) ∧
    (∀ pc ∈ includedContentFiles spec root, pc.1 ≠ p) := by
  constructor
  · intro nd hnd heq
    have hchk := treeNodesF_not_matched (fsDirSize root) spec [] "" root nd hnd
    rw [heq] at hchk
    simp only [if_neg Bool.false_ne_true] at hchk
    rw [hchk] at hmatch
    exact absurd hmatch (by simp)
  · intro pc hpc heq
    obtain ⟨-, -, -, -, -, -, -, hnm⟩ := includedContentFiles_spec hpc
    rw [← heq, hnm] at hmatch
    exact absurd hmatch (by simp)

/-- Witness for C1 at the concrete root `fsC1` and the ignored file
`a.txt`. -/
theorem claim_C1_witness :
    loadGitignorePatterns fsC1 = .ok (loadedSpec fsC1) ∧
    specMatchOpt (loadedSpec fsC1) (String.intercalate "/" ["a.txt"]) = true ∧
    ((∀ nd ∈ treeNodesF (fsDirSize fsC1) (loadedSpec fsC1) [] "" fsC1, nd.1 ≠ (["a.txt"], false)) ∧
      (∀ pc ∈ includedContentFiles (loadedSpec fsC1) fsC1, pc.1 ≠ ["a.txt"])) :=
  ⟨rfl, rfl, claim_C1 fsC1 (loadedSpec fsC1) ["a.txt"] rfl rfl⟩

/-- C2 counterexample: in `fsC2` the file `sub/b.txt` is matched by the
first loaded pattern (`sub/`) and re-included by the later negation
(`!sub/b.txt`), so its final verdict is unignored; it receives a content
block, yet the rendered tree is only `root/` and `.gitignore` — the file
does not appear in the tree because its parent directory `sub` is excluded
before the walk ever descends.  This refutes the claim that such a file
appears in both sections. -/
theorem claim_C2_counterexample :
    (loadedSpec fsC2).map (fun ps => psMatchFile (ps.take 1) "sub/b.txt") = some true ∧
    specMatchOpt (loadedSpec fsC2) "sub/b.txt" = false ∧
    (["sub", "b.txt"], "hi") ∈ includedContentFiles (loadedSpec fsC2) fsC2 ∧
    buildAsciiTree (loadedSpec fsC2) "root" fsC2 = "root/\n└── .gitignore" ∧
    ["sub", "b.txt"] ∉ (treeNodesF (fsDirSize fsC2) (loadedSpec fsC2) [] "" fsC2).map
      (fun nd => nd.1.1) := by decide

/-- C2 amended: a readable file not under a `.git` directory whose
root-relative path the rule set's last-match verdict leaves unignored (in
particular a file excluded by an earlier pattern and re-included by a later
negation) always receives a content block; it additionally appears in the
tree exactly as claimed provided every ancestor directory also passes its
directory check and no path component is named `.git` — re-inclusion does
not restore the file to the tree when an ancestor directory is excluded. -/
theorem claim_C2_amended (spec : Option PathSpec) (root : FSDir) (dpath : List String)
    (files : List (String × Option String)) (fname : String) (c : String)
    (hw : (dpath, files) ∈ osWalkF (fsDirSize root) [] root)
    (hf : (fname, some c) ∈ files)
    (hm : specMatchOpt spec (String.intercalate "/" (dpath ++ [fname])) = false) :
    (dpath.contains ".git" = false →
      renderedBlock (dpath ++ [fname]) c ∈ (contentBlocksAndDiags spec root).1) ∧
    ((∀ q, q <+: dpath → q ≠ [] →
        specMatchOpt spec (String.intercalate "/" q ++ "/") = false) →
      ".git" ∉ dpath → fname ≠ ".git" →
      ∃ ln, ((dpath ++ [fname], false), ln) ∈ treeNodesF (fsDirSize root) spec [] "" root) := by
  constructor
  · intro hg
    rw [contentBlocksAndDiags_eq]
    exact List.mem_map.mpr ⟨(dpath ++ [fname], c),
      mem_includedContentFiles_intro hw hf hg hm, rfl⟩
  · intro hanc hgit hfname
    have hw' : ([] ++ dpath, files) ∈ osWalkF (fsDirSize root) [] root := by simpa using hw
    have hanc' : ∀ q, q <+: dpath → q ≠ [] →
        specMatchOpt spec (String.intercalate "/" ([] ++ q) ++ "/") = false := by
      intro q hq hqne
      simpa using hanc q hq hqne
    have := treeNodesF_reach (fsDirSize root) spec [] "" root dpath files fname (some c)
      hw' hf hanc' hgit hfname (by simpa using hm)
    simpa using this

/-- Witness for the amended C2 at `fsC2w`, whose `keep.txt` is excluded by
the first pattern and re-included by the negation that follows it: the file
is rendered in both the content section and the tree. -/
theorem claim_C2_amended_witness :
    (renderedBlock ["keep.txt"] "k" ∈ (contentBlocksAndDiags (loadedSpec fsC2w) fsC2w).1) ∧
    ∃ ln, (((["keep.txt"] : List String), false), ln) ∈
      treeNodesF (fsDirSize fsC2w) (loadedSpec fsC2w) [] "" fsC2w := by
  have h := claim_C2_amended (loadedSpec fsC2w) fsC2w []
    [(".gitignore", some "keep.txt\n!keep.txt"), ("keep.txt", some "k")] "keep.txt" "k"
    (by decide) (by decide) (by decide)
  exact ⟨h.1 (by decide),
    h.2 (fun q hq hqne => absurd (List.prefix_nil.mp hq) hqne) (by decide) (by decide)⟩

/-- C3 counterexample: in the scenario root `fsC3` the rendered tree is
exactly as claimed, but the content section holds two blocks, not one —
`.gitignore` itself is a regular, non-ignored file and is rendered before
`a.py`. -/
theorem claim_C3_counterexample :
    buildAsciiTree (loadedSpec fsC3) "root" fsC3 = "root/\n├── .gitignore\n└── a.py" ∧
    (contentBlocksAndDiags (loadedSpec fsC3) fsC3).1.length = 2 := by decide

/-- C3 amended: for the scenario root the tree is exactly
`root/\n├── .gitignore\n└── a.py`, and the content section holds exactly
two blocks: one for `.gitignore` (fence tag `text`) and one for `a.py`
(fence tag `python`), in traversal order; no block for `b.txt` is
present. -/
theorem claim_C3_amended :
    buildAsciiTree (loadedSpec fsC3) "root" fsC3 = "root/\n├── .gitignore\n└── a.py" ∧
    (contentBlocksAndDiags (loadedSpec fsC3) fsC3).1 =
      [SEPARATOR ++ "\n" ++ "FILE: .gitignore" ++ "\n" ++ SEPARATOR ++ "\n" ++
        "```text" ++ "\n" ++ "sub/" ++ "\n" ++ "```" ++ "\n",
       SEPARATOR ++ "\n" ++ "FILE: a.py" ++ "\n" ++ SEPARATOR ++ "\n" ++
        "```python" ++ "\n" ++ "x=1" ++ "\n" ++ "```" ++ "\n"] ∧
    (∀ pc ∈ includedContentFiles (loadedSpec fsC3) fsC3, pc.1 ≠ ["sub", "b.txt"]) := by decide

/-- C4: every rendered block of the content section is exactly the
separator line, the `FILE:` header carrying the slash-joined root-relative
path, a second separator, and the fenced body tagged with the classified
language holding the file text plus one trailing newline; the separator is
fifty `=` characters. -/
theorem claim_C4 (spec : Option PathSpec) (root : FSDir) :
    (contentBlocksAndDiags spec root).1 =
      (includedContentFiles spec root).map (fun pc =>
        SEPARATOR ++ "\n" ++ "FILE: " ++ String.intercalate "/" pc.1 ++ "\n" ++ SEPARATOR ++
          "\n" ++ "```" ++ getLanguageIdentifier (pc.1.getLastD "") ++ "\n" ++ pc.2 ++ "\n" ++
          "```" ++ "\n") ∧
    SEPARATOR.data = List.replicate 50 '=' := by
  constructor
  · rw [contentBlocksAndDiags_eq]
    rfl
  · rfl

/-- C5: for a non-URL source resolving to an existing directory whose
ignore load succeeds, the digest is exactly the tree section and the
content section, joined as claimed, with both renderers run against the
same root and the single rule set built once for it. -/
theorem claim_C5 (clone localDir : String → Option FSDir) (displayOf : String → String)
    (source : String) (root : FSDir) (spec : Option PathSpec)
    (hurl : (pyStartsWith source "http" || pyStartsWith source "git@") = false)
    (hdir : localDir source = some root)
    (hload : loadGitignorePatterns root = .ok spec) :
    ingest clone localDir displayOf source =
      .ok ("Directory structure:\n" ++ buildAsciiTree spec (displayOf source) root ++ "\n\n" ++
        "File contents:\n\n" ++ String.intercalate "\n" (contentBlocksAndDiags spec root).1) := by
  simp only [ingest, hurl, Bool.false_eq_true, if_false, hdir, processDirectory, hload]

/-- Witness for C5 at the concrete scenario root exposed as local path
`d`. -/
theorem claim_C5_witness :
    ingest cloneNoneW localC5 (fun _ => "root") "d" =
      .ok ("Directory structure:\n" ++
        buildAsciiTree (loadedSpec fsC3) "root" fsC3 ++ "\n\n" ++
        "File contents:\n\n" ++
        String.intercalate "\n" (contentBlocksAndDiags (loadedSpec fsC3) fsC3).1) :=
  claim_C5 cloneNoneW localC5 (fun _ => "root") "d" fsC3 (loadedSpec fsC3)
    (by decide) rfl rfl

/-- C6: for every rule set (also the absent one) the `.git` directory and
everything below it appear nowhere: no tree node's path has a `.git`
component, and no content block's directory path has one. -/
theorem claim_C6 (spec : Option PathSpec) (root : FSDir) :
    (∀ nd ∈ treeNodesF (fsDirSize root) spec [] "" root, ".git" ∉ nd.1.1) ∧
    (∀ pc ∈ includedContentFiles spec root, ".git" ∉ pc.1.dropLast) := by
  constructor
  · intro nd hnd
    exact treeNodesF_no_git (fsDirSize root) spec [] "" root nd (by simp) hnd
  · intro pc hpc
    exact includedContentFiles_no_git hpc

/-- Witness for C6: the root `fsC6` holds a populated `.git` directory and
no ignore rule set at all. -/
theorem claim_C6_witness :
    (∀ nd ∈ treeNodesF (fsDirSize fsC6) none [] "" fsC6, ".git" ∉ nd.1.1) ∧
    (∀ pc ∈ includedContentFiles none fsC6, ".git" ∉ pc.1.dropLast) :=
  claim_C6 none fsC6

/-- C7 counterexample: the local source `repo` resolves to an existing
directory, yet `ingest` raises — its `.gitignore` exists but cannot be
read, and `_load_gitignore_patterns` calls `read_text()` unguarded, so the
exception propagates.  This refutes the "only if" direction of the
claim. -/
theorem claim_C7_counterexample :
    localC7 "repo" = some [(".gitignore", FSEntry.file none)] ∧
    ingest cloneNoneW localC7 (fun _ => "repo") "repo" = .error .unreadableIgnore :=
  ⟨rfl, rfl⟩

/-- C7 amended: for a non-URL source, `ingest` raises exactly when the
supplied path is not an existing directory or an ignore file below the root
(`.gitignore` or `.git/info/exclude`) exists but cannot be read; in either
case the error carries no digest string. -/
theorem claim_C7_amended (clone localDir : String → Option FSDir) (displayOf : String → String)
    (source : String)
    (hurl : (pyStartsWith source "http" || pyStartsWith source "git@") = false) :
    (∃ e, ingest clone localDir displayOf source = .error e) ↔
      (localDir source = none ∨
        ∃ root, localDir source = some root ∧
          loadGitignorePatterns root = .error .unreadableIgnore) := by
  simp only [ingest, hurl, Bool.false_eq_true, if_false]
  cases hd : localDir source with
  | none => simp
  | some root =>
      simp only [processDirectory]
      cases hl : loadGitignorePatterns root with
      | error e =>
          cases e
          simp [hl]
      | ok spec => simp [hl]

/-- Witness for the amended C7 at the world of `localC7`: the source
`repo` is a directory, its `.gitignore` is unreadable, and `ingest`
errors. -/
theorem claim_C7_amended_witness :
    (∃ e, ingest cloneNoneW localC7 (fun _ => "repo") "repo" = .error e) ↔
      (localC7 "repo" = none ∨
        ∃ root, localC7 "repo" = some root ∧
          loadGitignorePatterns root = .error .unreadableIgnore) :=
  claim_C7_amended cloneNoneW localC7 (fun _ => "repo") "repo" (by decide)

/-- C8: an unreadable file that the traversal reaches (outside `.git` and
not ignored) aborts nothing: its path is diagnosed in the skip list, it
yields no block (every block arises from a successfully read file, third
conjunct), and the blocks are exactly those of all included readable
files. -/
theorem claim_C8 (spec : Option PathSpec) (root : FSDir) (dpath : List String)
    (files : List (String × Option String)) (fname : String)
    (hw : (dpath, files) ∈ osWalkF (fsDirSize root) [] root)
    (hf : (fname, (none : Option String)) ∈ files)
    (hg : dpath.contains ".git" = false)
    (hm : specMatchOpt spec (String.intercalate "/" (dpath ++ [fname])) = false) :
    (dpath ++ [fname]) ∈ (contentBlocksAndDiags spec root).2 ∧
    (contentBlocksAndDiags spec root).1 =
      (includedContentFiles spec root).map (fun pc => renderedBlock pc.1 pc.2) ∧
    ∀ pc ∈ includedContentFiles spec root, ∃ dp fl fn,
      (dp, fl) ∈ osWalkF (fsDirSize root) [] root ∧ (fn, some pc.2) ∈ fl ∧
        pc.1 = dp ++ [fn] := by
  refine ⟨?_, ?_, ?_⟩
  · rw [contentBlocksAndDiags_eq]
    exact mem_skippedFiles_intro hw hf hg hm
  · rw [contentBlocksAndDiags_eq]
  · intro pc hpc
    obtain ⟨dp, fl, fn, h1, h2, h3, -, -⟩ := includedContentFiles_spec hpc
    exact ⟨dp, fl, fn, h1, h2, h3⟩

/-- Witness for C8 at the root `fsC8`, whose `bin.dat` is unreadable while
`ok.py` is readable. -/
theorem claim_C8_witness :
    ((([] : List String) ++ ["bin.dat"]) ∈ (contentBlocksAndDiags none fsC8).2) ∧
    (contentBlocksAndDiags none fsC8).1 =
      (includedContentFiles none fsC8).map (fun pc => renderedBlock pc.1 pc.2) ∧
    ∀ pc ∈ includedContentFiles none fsC8, ∃ dp fl fn,
      (dp, fl) ∈ osWalkF (fsDirSize fsC8) [] fsC8 ∧ (fn, some pc.2) ∈ fl ∧
        pc.1 = dp ++ [fn] :=
  claim_C8 none fsC8 [] [("bin.dat", none), ("ok.py", some "1")] "bin.dat"
    (by decide) (by decide) (by decide) (by decide)

/-- C9: within any directory the kept entries are listed in strictly
increasing lexicographic order of their bare names (given the real-world
invariant that the directory's names are distinct), and one level of the
walk renders exactly those entries in that order, the last with the
`└── ` connector and every earlier one with `├── `, recursing below
directories with the matching prefix extension. -/
theorem claim_C9 (spec : Option PathSpec) (rel : List String) (pre : String) (entries : FSDir)
    (n : Nat) (hnd : (entries.map Prod.fst).Nodup) :
    ((filterEntries spec rel entries).map Prod.fst).Pairwise
      (fun a b => charListLt a.data b.data = true) ∧
    walkF (n + 1) spec rel pre entries =
      (filterEntries spec rel entries).enum.flatMap (fun ie =>
        (pre ++ (if ie.1 == (filterEntries spec rel entries).length - 1 then "└── " else "├── ")
          ++ ie.2.1) ::
          (match ie.2.2 with
           | FSEntry.dir es =>
               walkF n spec (rel ++ [ie.2.1])
                 (pre ++ (if ie.1 == (filterEntries spec rel entries).length - 1
                   then "    " else "│   ")) es
           | FSEntry.file _ => [])) :=
  ⟨pairwise_lt_filterEntries spec rel hnd, rfl⟩

/-- Witness for C9 on a two-entry directory given in unsorted order. -/
theorem claim_C9_witness :
    ((filterEntries none [] [("b.py", FSEntry.file (some "1")),
        ("a.py", FSEntry.file (some "2"))]).map Prod.fst).Pairwise
      (fun a b => charListLt a.data b.data = true) ∧
    walkF 1 none [] "" [("b.py", FSEntry.file (some "1")), ("a.py", FSEntry.file (some "2"))] =
      (filterEntries none [] [("b.py", FSEntry.file (some "1")),
        ("a.py", FSEntry.file (some "2"))]).enum.flatMap (fun ie =>
        ("" ++ (if ie.1 == (filterEntries none [] [("b.py", FSEntry.file (some "1")),
            ("a.py", FSEntry.file (some "2"))]).length - 1 then "└── " else "├── ")
          ++ ie.2.1) ::
          (match ie.2.2 with
           | FSEntry.dir es =>
               walkF 0 none ([] ++ [ie.2.1])
                 ("" ++ (if ie.1 == (filterEntries none [] [("b.py", FSEntry.file (some "1")),
                     ("a.py", FSEntry.file (some "2"))]).length - 1
                   then "    " else "│   ")) es
           | FSEntry.file _ => [])) :=
  claim_C9 none [] "" [("b.py", FSEntry.file (some "1")), ("a.py", FSEntry.file (some "2"))] 0
    (by decide)

/-- C10: a source is processed as a remote clone exactly when it starts
with `http` or `git@`: in that case the result never consults the local
resolver or display collaborator (so a local path that merely begins with
`http` is never processed as a local directory) and a failing clone
surfaces; otherwise the clone collaborator is never consulted and a source
that does not resolve to a directory yields the `not found` error. -/
theorem claim_C10 (source : String) (clone cloneB localDir localDirB : String → Option FSDir)
    (displayOf displayOfB : String → String) :
    ((pyStartsWith source "http" || pyStartsWith source "git@") = true →
      ingest clone localDir displayOf source = ingest clone localDirB displayOfB source ∧
      (clone source = none →
        ingest clone localDir displayOf source = .error (.cloneFailed source))) ∧
    ((pyStartsWith source "http" || pyStartsWith source "git@") = false →
      ingest clone localDir displayOf source = ingest cloneB localDir displayOf source ∧
      (localDir source = none →
        ingest clone localDir displayOf source =
          .error (.rootNotFound ("Local path not found or not a directory: " ++ source)))) := by
  constructor
  · intro hurl
    constructor
    · unfold ingest
      rw [if_pos hurl, if_pos hurl]
    · intro hclone
      unfold ingest
      rw [if_pos hurl, hclone]
  · intro hurl
    constructor
    · unfold ingest
      rw [if_neg (ne_true_of_eq_false hurl), if_neg (ne_true_of_eq_false hurl)]
    · intro hlocal
      unfold ingest
      rw [if_neg (ne_true_of_eq_false hurl), hlocal]

/-- Witness for C10 at the source `httpdocs`: a plain relative name that
begins with `http` is clone-processed, independent of any local
directory of that name. -/
theorem claim_C10_witness :
    ingest cloneNoneW localC5 (fun _ => "a") "httpdocs" =
      ingest cloneNoneW (fun _ => none) (fun _ => "b") "httpdocs" ∧
    ingest cloneNoneW localC5 (fun _ => "a") "httpdocs" = .error (.cloneFailed "httpdocs") :=
  ⟨((claim_C10 "httpdocs" cloneNoneW cloneNoneW localC5 (fun _ => none)
      (fun _ => "a") (fun _ => "b")).1 (by decide)).1,
   ((claim_C10 "httpdocs" cloneNoneW cloneNoneW localC5 (fun _ => none)
      (fun _ => "a") (fun _ => "b")).1 (by decide)).2 rfl⟩
